import Mathlib

/-!
Verification development for the models_chat_backend repository.

Texts are modelled as `List Char`; JavaScript numbers appearing in the
RAG pipeline are modelled as `ℚ` (exact rationals) and the 32-bit hash
arithmetic as `ℤ` with explicit reduction modulo 2^32.  Each definition
is a direct translation of the corresponding TypeScript function; the
source file and symbol are recorded in the doc comments.
-/

/-- JavaScript whitespace test (the relevant subset of the regex class
used by the source: space, tab, newline, carriage return, vertical tab,
form feed). -/
def isWsChar (c : Char) : Bool :=
  c = ' ' || c = '\t' || c = '\n' || c = '\r' || c = '\x0b' || c = '\x0c'

/-- Sentence-terminating punctuation used by the chunker
(document-processor source, `splitIntoSentences` and `getOverlapText`). -/
def isTermChar (c : Char) : Bool :=
  c = '.' || c = '!' || c = '?'

/-- Leading-whitespace removal, one half of JavaScript `String.trim`. -/
def trimLeft (l : List Char) : List Char := l.dropWhile isWsChar

/-- Trailing-whitespace removal, the other half of `String.trim`. -/
def trimRight (l : List Char) : List Char := (l.reverse.dropWhile isWsChar).reverse

/-- JavaScript `String.prototype.trim`. -/
def jsTrim (l : List Char) : List Char := trimRight (trimLeft l)

/-- Scanner for `text.split(/([.!?]+[\s\n]+)/)` from the document
processor: the captured separator (a run of terminators followed by a
run of whitespace) is kept in the output list, exactly as JavaScript
`split` does with a capturing group.  The first argument is recursion
fuel, always called with at least the length of the remaining input
(each step consumes at least one character). -/
def goSplitN : Nat → List Char → List Char → List (List Char)
  | _, acc, [] => [acc.reverse]
  | 0, acc, rest => [acc.reverse ++ rest]
  | n + 1, acc, c :: cz =>
    if isTermChar c then
      let r1 := List.dropWhile isTermChar (c :: cz)
      let wRun := r1.takeWhile isWsChar
      if wRun.isEmpty then goSplitN n (c :: acc) cz
      else
        acc.reverse :: ((List.takeWhile isTermChar (c :: cz)) ++ wRun) ::
          goSplitN n [] (r1.dropWhile isWsChar)
    else goSplitN n (c :: acc) cz

/-- The scanner run with sufficient fuel. -/
def goSplit (acc : List Char) (l : List Char) : List (List Char) :=
  goSplitN l.length acc l

/-- The pairwise-merge step of `splitIntoSentences`: the source maps
each element `s` of the filtered split to `s + arr[i+1]` whenever `s`
contains a sentence terminator and is not the last element. -/
def mapJoin : List (List Char) → List (List Char)
  | [] => []
  | [s] => [s]
  | s :: t :: r => (if s.any isTermChar then s ++ t else s) :: mapJoin (t :: r)

/-- Model of `DocumentProcessorService.splitIntoSentences` (document-processor
source): split on the separator regex keeping captures, drop
whitespace-only parts, merge each terminator-bearing part with its
successor, drop whitespace-only parts again, and fall back to the whole
text when nothing remains. -/
def splitIntoSentences (text : List Char) : List (List Char) :=
  let parts := goSplit [] text
  let filtered := parts.filter (fun s => (jsTrim s).length > 0)
  let mapped := mapJoin filtered
  let sentences := mapped.filter (fun s => (jsTrim s).length > 0)
  if sentences.length = 0 then [text] else sentences

/-- Index of the last sentence terminator in a list, if any (the
backward `for` loop of `getOverlapText` searches the positions up to
and including `overlapStart` for the last terminator). -/
def lastTermIn : List Char → Option Nat
  | [] => none
  | c :: cz =>
    match lastTermIn cz with
    | some j => some (j + 1)
    | none => if isTermChar c then some 0 else none

/-- Model of `DocumentProcessorService.getOverlapText(chunk, overlapSize)`
(document-processor source): keep the whole buffer when it fits in the
overlap, otherwise start the overlap just after the last sentence
terminator at or before position `length - overlapSize`, falling back
to that position itself, and trim the result. -/
def getOverlapText (chunk : List Char) (overlapSize : Nat) : List Char :=
  if chunk.length ≤ overlapSize then chunk
  else
    let overlapStart := chunk.length - overlapSize
    let pre := chunk.take (overlapStart + 1)
    let start :=
      match lastTermIn pre with
      | some i => i + 1
      | none => overlapStart
    jsTrim (chunk.drop start)

/-- Model of `DocumentChunk` (document-processor source). -/
structure DocumentChunk where
  content : List Char
  chunkIndex : Nat
  startChar : Nat
  endChar : Nat
  deriving Repr, DecidableEq

/-- Loop state of `chunkText`.  The `seeds` field is instrumentation
recording, for every sealed chunk, the raw (untrimmed) buffer that was
sealed together with the overlap text computed from it; it does not
influence the produced chunks. -/
structure ChunkState where
  chunks : List DocumentChunk
  seeds : List (List Char × List Char)
  current : List Char
  startChar : Nat
  chunkIndex : Nat
  currentStartChar : Nat
  deriving Repr, DecidableEq

/-- One iteration of the sentence loop in
`DocumentProcessorService.chunkText`. -/
def chunkStep (cs ov : Nat) (st : ChunkState) (sentence : List Char) : ChunkState :=
  let potential := st.current ++ (if st.current.length ≠ 0 then [' '] else []) ++ sentence
  if potential.length > cs ∧ st.current.length > 0 then
    let c : DocumentChunk :=
      { content := jsTrim st.current
        chunkIndex := st.chunkIndex
        startChar := st.currentStartChar
        endChar := st.startChar + st.current.length }
    let overlapText := getOverlapText st.current ov
    let newCurrent := overlapText ++ sentence
    let newCurrentStartChar :=
      st.startChar + newCurrent.length - overlapText.length - sentence.length
    { chunks := st.chunks ++ [c]
      seeds := st.seeds ++ [(st.current, overlapText)]
      current := newCurrent
      startChar := st.startChar + sentence.length +
        (if newCurrent.length > sentence.length then 1 else 0)
      chunkIndex := st.chunkIndex + 1
      currentStartChar := newCurrentStartChar }
  else
    let newCurrent := potential
    { st with
      current := newCurrent
      startChar := st.startChar + sentence.length +
        (if newCurrent.length > sentence.length then 1 else 0) }

/-- The final-buffer flush at the end of `chunkText`. -/
def chunkFinal (st : ChunkState) : List DocumentChunk :=
  if (jsTrim st.current).length > 0 then
    st.chunks ++ [{ content := jsTrim st.current
                    chunkIndex := st.chunkIndex
                    startChar := st.currentStartChar
                    endChar := st.startChar }]
  else st.chunks

/-- The sentence loop of `chunkText` run from the initial state. -/
def chunkRun (cs ov : Nat) (text : List Char) : ChunkState :=
  (splitIntoSentences text).foldl (chunkStep cs ov) ⟨[], [], [], 0, 0, 0⟩

/-- Model of `DocumentProcessorService.chunkText(text)` (document-processor
source), parameterised by the configured chunk size and overlap
(`CHUNK_SIZE`, default 1000, and `CHUNK_OVERLAP`, default 200). -/
def chunkText (cs ov : Nat) (text : List Char) : List DocumentChunk :=
  if (jsTrim text).length = 0 then [] else chunkFinal (chunkRun cs ov text)

/-- The overlap instrumentation of a `chunkText` run: the j-th entry is
the raw buffer sealed as chunk j paired with the overlap text seeded
into chunk j+1. -/
def chunkSeeds (cs ov : Nat) (text : List Char) : List (List Char × List Char) :=
  (chunkRun cs ov text).seeds

/-- Length of the longest sentence `splitIntoSentences` produces for a
text. -/
def maxSentLen (text : List Char) : Nat :=
  ((splitIntoSentences text).map List.length).foldr max 0

/-! ## Vector store (vector-store service source)

External backend calls (ChromaDB) are suspension points whose outcomes
are supplied as explicit `Except` oracles; `none` for the collection
models the lazily-initialised collection being absent (initialisation
failure is swallowed by the source). -/

/-- Model of `DocumentMetadata` (vector-store service source). -/
structure DocumentMetadata where
  fileId : List Char
  chunkIndex : Nat
  originalName : List Char
  startChar : Option Nat
  endChar : Option Nat
  deriving Repr, DecidableEq

/-- One durable record of the vector store. -/
structure StoredRecord where
  id : List Char
  embedding : List ℚ
  document : List Char
  metadata : DocumentMetadata
  deriving Repr, DecidableEq

/-- The backing ChromaDB collection, as the multiset of its records. -/
abbrev Collection := List StoredRecord

/-- The per-query slice of a ChromaDB query response: the source sends a
single query embedding and reads `results.documents?.[0]`,
`results.metadatas?.[0]`, `results.distances?.[0]`; `none` models a
null/undefined field. -/
structure QueryResp where
  documents : Option (List (List Char))
  metadatas : Option (List DocumentMetadata)
  distances : Option (List ℚ)
  deriving Repr, DecidableEq

/-- A row of `searchSimilar`'s result. -/
structure SearchRow where
  document : List Char
  metadata : DocumentMetadata
  distance : ℚ
  deriving Repr, DecidableEq

/-- Placeholder metadata for an out-of-range read (the source casts a
possibly-undefined array slot). -/
def defaultMetadata : DocumentMetadata := ⟨[], 0, [], none, none⟩

/-- The `if (!this.collection) await this.initialize()` preamble shared
by the vector-store methods: `initR` is what the retried
initialisation would produce (`none` when it fails, which the source
swallows). -/
def effectiveCollection (col initR : Option Collection) : Option Collection :=
  match col with
  | some c => some c
  | none => initR

/-- Result-assembly loop of `searchSimilar`: distances fall back to 0
for missing entries (`distances[i] || 0`). -/
def searchSimilarRows (resp : QueryResp) : List SearchRow :=
  match resp.documents with
  | none => []
  | some docs =>
    let metas := resp.metadatas.getD []
    let dists := resp.distances.getD []
    (List.range docs.length).map (fun i =>
      { document := docs.getD i []
        metadata := metas.getD i defaultMetadata
        distance := dists.getD i 0 })

/-- Model of `VectorStoreService.searchSimilar` (vector-store service source).
The whole body is wrapped in try/catch returning `[]`, so the model is
a total function; `queryR` is the outcome of the backend
`collection.query` call for the given embedding, `topK` and filter. -/
def searchSimilar (col initR : Option Collection)
    (queryR : Except (List Char) QueryResp)
    (queryEmbedding : List ℚ) (topK : Nat) (filter : Option (List Char)) :
    List SearchRow :=
  match effectiveCollection col initR with
  | none => []
  | some _ =>
    match queryR with
    | .error _ => []
    | .ok resp => searchSimilarRows resp

/-- Model of `VectorStoreService.getDocumentCount` (vector-store service
source): calling `.count()` on a still-missing collection throws, the
catch returns 0; a failing backend count also returns 0. -/
def getDocumentCount (col initR : Option Collection)
    (countR : Except (List Char) Nat) : Nat :=
  match effectiveCollection col initR with
  | none => 0
  | some _ =>
    match countR with
    | .error _ => 0
    | .ok n => n

/-- Deterministic record id generated by `addDocuments`:
`fileId_chunk_chunkIndex`. -/
def chunkRecordId (fileId : List Char) (chunkIdx : Nat) : List Char :=
  fileId ++ "_chunk_".toList ++ (Nat.repr chunkIdx).toList

/-- Model of `VectorStoreService.addDocuments` (vector-store service source)
with ids left to be generated: throws when the collection is missing
after the initialisation retry, otherwise batch-inserts one record per
embedding. -/
def addDocuments (col initR : Option Collection)
    (embeddings : List (List ℚ)) (documents : List (List Char))
    (metadatas : List DocumentMetadata) :
    Except (List Char) Collection :=
  match effectiveCollection col initR with
  | none => .error "ChromaDB collection is not initialized".toList
  | some c =>
    .ok (c ++ (List.range embeddings.length).map (fun i =>
      { id := chunkRecordId (metadatas.getD i defaultMetadata).fileId
          (metadatas.getD i defaultMetadata).chunkIndex
        embedding := embeddings.getD i []
        document := documents.getD i []
        metadata := metadatas.getD i defaultMetadata }))

/-! ## RAG service (rag service source)

Effects performed against collaborators are recorded in an action
trace so the theorems can speak about which calls were and were not
made. -/

/-- The observable effects of the RAG service on its collaborators. -/
inductive RagAction
  | processFile
  | embedChunks
  | embedQuery
  | addDocuments
  | queryStore
  | deleteDocuments
  deriving Repr, DecidableEq

/-- Model of `SearchResult` (rag service source). -/
structure SearchResult where
  content : List Char
  metadata : DocumentMetadata
  similarity : ℚ
  deriving Repr, DecidableEq

/-- Model of `RagService.indexFile` (rag service source): extract+chunk, embed,
check the count invariant, then upsert.  `processR` and `embedR` are
the outcomes of the collaborator calls; the error message of the
mismatch throw is abbreviated (the source interpolates both counts). -/
def indexFile (enabled : Bool)
    (processR : Except (List Char) (List DocumentChunk))
    (embedR : Except (List Char) (List (List ℚ)))
    (fileId originalName : List Char)
    (col initR : Option Collection) :
    Except (List Char) Unit × Option Collection × List RagAction :=
  if !enabled then (.ok (), col, [])
  else
    match processR with
    | .error e => (.error e, col, [.processFile])
    | .ok chunks =>
      if chunks.length = 0 then (.ok (), col, [.processFile])
      else
        match embedR with
        | .error e => (.error e, col, [.processFile, .embedChunks])
        | .ok embeddings =>
          if embeddings.length ≠ chunks.length then
            (.error "Mismatch between chunks and embeddings".toList, col,
              [.processFile, .embedChunks])
          else
            let chunkTexts := chunks.map (·.content)
            let metadatas := chunks.map (fun c =>
              { fileId := fileId
                chunkIndex := c.chunkIndex
                originalName := originalName
                startChar := some c.startChar
                endChar := some c.endChar : DocumentMetadata })
            match addDocuments col initR embeddings chunkTexts metadatas with
            | .error e => (.error e, col, [.processFile, .embedChunks, .addDocuments])
            | .ok c' => (.ok (), some c', [.processFile, .embedChunks, .addDocuments])

/-- Model of `RagService.deleteFileIndex` (rag service source); `deleteR` is the
outcome of `vectorStore.deleteDocumentsByFileId`. -/
def deleteFileIndex (enabled : Bool) (deleteR : Except (List Char) Unit) :
    Except (List Char) Unit × List RagAction :=
  if !enabled then (.ok (), [])
  else
    match deleteR with
    | .error e => (.error e, [.deleteDocuments])
    | .ok _ => (.ok (), [.deleteDocuments])

/-- The distance-to-similarity conversion of `searchDocuments`
(rag service source):
`result.distance >= 0 ? 1 - Math.min(result.distance, 1) : 0`. -/
def simOfDistance (d : ℚ) : ℚ := if 0 ≤ d then 1 - min d 1 else 0

/-- Model of `RagService.searchDocuments` (rag service source): embed the query,
query the store, convert distances to similarities; every error is
caught and turned into the empty result. -/
def searchDocuments (enabled : Bool) (topK : Nat)
    (embedQ : Except (List Char) (List ℚ))
    (col initR : Option Collection)
    (queryR : Except (List Char) QueryResp)
    (filter : Option (List Char)) :
    List SearchResult × List RagAction :=
  if !enabled then ([], [])
  else
    match embedQ with
    | .error _ => ([], [.embedQuery])
    | .ok qe =>
      let rows := searchSimilar col initR queryR qe topK filter
      (rows.map (fun r =>
        { content := r.document
          metadata := r.metadata
          similarity := simOfDistance r.distance }), [.embedQuery, .queryStore])

/-- Model of `RagService.getStats` (rag service source): 0 when disabled,
otherwise the store count (which itself degrades to 0 on failure, so
the service-level catch is unreachable). -/
def getStats (enabled : Bool) (col initR : Option Collection)
    (countR : Except (List Char) Nat) : Nat :=
  if !enabled then 0 else getDocumentCount col initR countR

/-! ## Offline fallback embedding (embedding service source) -/

/-- Per-character lowering modelling `text.toLowerCase()` (identical on
the ASCII range). -/
def toLowerText (l : List Char) : List Char := l.map Char.toLower

/-- Scanner for `text.split(/\s+/)`: separators are maximal whitespace
runs; leading and trailing runs contribute empty fields, as JavaScript
does. -/
def splitWsN : Nat → List Char → List Char → List (List Char)
  | _, acc, [] => [acc.reverse]
  | 0, acc, rest => [acc.reverse ++ rest]
  | n + 1, acc, c :: cz =>
    if isWsChar c then
      acc.reverse :: splitWsN n [] (cz.dropWhile isWsChar)
    else splitWsN n (c :: acc) cz

/-- JavaScript `text.split(/\s+/)` (fuel as in `goSplitN`). -/
def splitWs (l : List Char) : List (List Char) := splitWsN l.length [] l

/-- Signed 32-bit reduction (`hash & hash` in the source coerces the
double to a signed 32-bit integer). -/
def toInt32 (x : ℤ) : ℤ := (x + 2 ^ 31) % 2 ^ 32 - 2 ^ 31

/-- One character step of `simpleHash`:
`hash = ((hash << 5) - hash) + char` followed by the 32-bit coercion;
the shift itself also operates on 32 bits. -/
def simpleHashStep (h : ℤ) (c : Char) : ℤ := toInt32 (toInt32 (h * 32) - h + c.toNat)

/-- Model of `EmbeddingService.simpleHash` (embedding service source), including
the final `Math.abs`. -/
def simpleHash (w : List Char) : Nat := (w.foldl simpleHashStep 0).natAbs

/-- Model of `embedding[index] += delta` on the 384-slot accumulator array. -/
def bumpAt (emb : List ℚ) (i : Nat) (d : ℚ) : List ℚ := emb.set i (emb.getD i 0 + d)

/-- The per-word weight of `EmbeddingService.fallbackEmbedding`
(embedding service source): `1 / (words.length || 1)` where `words` is
the lowercased whitespace split of the text.  The normalisation that
follows the accumulation divides by the square root of
`fallbackMagnitudeSq`; it is stated at the `ℝ` level in the
theorems. -/
def fallbackWeight (text : List Char) : ℚ :=
  1 / (if (splitWs (toLowerText text)).length = 0 then 1
       else ((splitWs (toLowerText text)).length : ℚ))

/-- The bucket-accumulation loop of `fallbackEmbedding`: each word adds
`fallbackWeight` (the source's `1 / (words.length || 1)`) to the bucket
selected by its hash. -/
def fallbackRaw (text : List Char) : List ℚ :=
  (splitWs (toLowerText text)).foldl
    (fun emb word => bumpAt emb (simpleHash word % 384) (fallbackWeight text))
    (List.replicate 384 (0 : ℚ))

/-- Sum of a rational list (the `reduce` in the source). -/
def sumQ (l : List ℚ) : ℚ := l.foldr (· + ·) 0

/-- Sum of squares of a rational list. -/
def sumSqQ (l : List ℚ) : ℚ := (l.map (fun v => v * v)).foldr (· + ·) 0

/-- The squared magnitude computed by `fallbackEmbedding` before
normalisation. -/
def fallbackMagnitudeSq (text : List Char) : ℚ := sumSqQ (fallbackRaw text)

/-! ## Hugging Face retry loop (embedding service source, second
revision) -/

/-- Shape of `response.data` from the Hugging Face inference endpoint:
a flat numeric array, an array of arrays, or anything else.  (`arr1 []`
and `arr2 []` both stand for the JavaScript empty array; the parsers
below agree on them.) -/
inductive HfData
  | arr1 (xs : List ℚ)
  | arr2 (xss : List (List ℚ))
  | other
  deriving Repr, DecidableEq

/-- Outcome of one `axios.post` to the Hugging Face endpoint. -/
inductive HfResp
  | ok (data : HfData)
  | http503
  | httpOther (status : Nat)
  deriving Repr, DecidableEq

/-- Error message used by the model for surfaced Hugging Face
failures. -/
def hfErrMsg : List Char := "Invalid embedding response from Hugging Face".toList

/-- Response-shape handling of `generateHuggingFaceEmbedding`: take
`data[0]` when it is an array, otherwise `data` itself, and reject
empty or non-array results. -/
def hfParseSingle : HfData → Except (List Char) (List ℚ)
  | .arr1 xs => if xs.length = 0 then .error hfErrMsg else .ok xs
  | .arr2 [] => .error hfErrMsg
  | .arr2 (x :: _) => if x.length = 0 then .error hfErrMsg else .ok x
  | .other => .error hfErrMsg

/-- Model of `EmbeddingService.generateHuggingFaceEmbedding` (embedding service
source, second revision), driven by the finite stream of provider
responses.  A 503 sleeps 10000 ms and calls again recursively with no
retry counter.  Returns the surfaced outcome (`none` when the stream is
exhausted with the code still retrying), the number of provider calls
made, and the list of delays slept. -/
def generateHuggingFaceEmbedding :
    List HfResp → Option (Except (List Char) (List ℚ)) × Nat × List Nat
  | [] => (none, 0, [])
  | r :: rs =>
    match r with
    | .http503 =>
      ((generateHuggingFaceEmbedding rs).1,
        (generateHuggingFaceEmbedding rs).2.1 + 1,
        10000 :: (generateHuggingFaceEmbedding rs).2.2)
    | .httpOther _ => (some (.error hfErrMsg), 1, [])
    | .ok d => (some (hfParseSingle d), 1, [])

/-- Response-shape handling of `generateHuggingFaceEmbeddings`: an
array of arrays is taken as is, a flat array is wrapped; a count
mismatch with the requested texts is only logged. -/
def hfParseBatch : HfData → Except (List Char) (List (List ℚ))
  | .arr1 xs => .ok [xs]
  | .arr2 [] => .ok [[]]
  | .arr2 xss => .ok xss
  | .other => .error hfErrMsg

/-- Model of `EmbeddingService.generateHuggingFaceEmbeddings` (embedding service
source, second revision): identical unbounded 503-retry structure as
the single-text variant. -/
def generateHuggingFaceEmbeddings :
    List HfResp → Option (Except (List Char) (List (List ℚ))) × Nat × List Nat
  | [] => (none, 0, [])
  | r :: rs =>
    match r with
    | .http503 =>
      ((generateHuggingFaceEmbeddings rs).1,
        (generateHuggingFaceEmbeddings rs).2.1 + 1,
        10000 :: (generateHuggingFaceEmbeddings rs).2.2)
    | .httpOther _ => (some (.error hfErrMsg), 1, [])
    | .ok d => (some (hfParseBatch d), 1, [])

/-- Number of leading `http503` responses in a stream. -/
def leading503 : List HfResp → Nat
  | [] => 0
  | .http503 :: rs => leading503 rs + 1
  | .httpOther _ :: _ => 0
  | .ok _ :: _ => 0

/-! ## Chat history trimming (gemini service and custom service
sources) -/

/-- The role/content message shape shared by the chat backends. -/
structure MessageDto where
  role : List Char
  content : List Char
  deriving Repr, DecidableEq

/-- The role excluded from provider requests. -/
def errorRole : List Char := "error".toList

/-- JavaScript `l.slice(-n)`: the window of the most recent `n`
elements. -/
def jsSliceLast (n : Nat) (l : List α) : List α := l.drop (l.length - n)

/-- Model of `messages.slice(-10).filter(msg => msg.role !== 'error')` in
`GeminiService.generateResponse` (gemini service source). -/
def geminiRecentMessages (messages : List MessageDto) : List MessageDto :=
  (jsSliceLast 10 messages).filter (fun m => m.role != errorRole)

/-- The same expression in `CustomService.generateResponse` (custom
service source). -/
def customRecentMessages (messages : List MessageDto) : List MessageDto :=
  (jsSliceLast 10 messages).filter (fun m => m.role != errorRole)

/-- The message list the custom backend sends to the provider: optional
system prompt followed by the trimmed history. -/
def customChatMessages (systemPrompt : Option (List Char))
    (messages : List MessageDto) : List MessageDto :=
  (match systemPrompt with
   | some sp => if (jsTrim sp).length ≠ 0 then [⟨"system".toList, sp⟩] else []
   | none => []) ++
  (customRecentMessages messages).map (fun m => ⟨m.role, m.content⟩)

/-! ## Auxiliary predicates and concrete inputs used by the claims -/

/-- Holds when `p` is an initial segment of `l`. -/
def startsWithL (p l : List Char) : Prop := l.take p.length = p

/-- Holds when `p` is a final segment of `l`. -/
def endsWithL (p l : List Char) : Prop := l.drop (l.length - p.length) = p

/-- All sentence terminators of `l` sit in its final `ov` characters
(the shape invariant `getOverlapText` guarantees for its output). -/
def termConfined (ov : Nat) (l : List Char) : Prop :=
  ∀ i, i < l.length → isTermChar (l.getD i ' ') = true → l.length ≤ i + ov

/-- Placeholder chunk for out-of-range reads in claim statements. -/
def defaultChunk : DocumentChunk := ⟨[], 0, 0, 0⟩

/-- Concrete document text exercising the overlap boundary search of
the chunker. -/
def cexText : List Char := "X. BBBBBBBBBBBBB CCCCC".toList

/-- The overlap claim at one configuration, as the specification states
it: every later chunk begins with the overlap string seeded from its
predecessor, that string is a suffix of the predecessor, and its length
is at most the configured overlap. -/
def overlapClaimAt (cs ov : Nat) (text : List Char) : Prop :=
  ∀ j, j < (chunkText cs ov text).length - 1 →
    startsWithL (jsTrim ((chunkSeeds cs ov text).getD j ([], [])).2)
      ((chunkText cs ov text).getD (j + 1) defaultChunk).content ∧
    endsWithL (jsTrim ((chunkSeeds cs ov text).getD j ([], [])).2)
      ((chunkText cs ov text).getD j defaultChunk).content ∧
    (jsTrim ((chunkSeeds cs ov text).getD j ([], [])).2).length ≤ ov

/-- The chunk-length claim at one configuration, as the specification
states it: assuming the configured overlap does not exceed the chunk
size, every chunk is at most `chunkSize` plus one sentence long, except
that a chunk may be a single (whole) sentence of any length. -/
def lengthClaimAt (cs ov : Nat) (text : List Char) : Prop :=
  ov ≤ cs →
    ∀ c ∈ chunkText cs ov text,
      c.content.length ≤ cs + maxSentLen text ∨
      ∃ s ∈ splitIntoSentences text, c.content = jsTrim s

instance (p l : List Char) : Decidable (startsWithL p l) :=
  decidable_of_iff (l.take p.length = p) Iff.rfl

instance (p l : List Char) : Decidable (endsWithL p l) :=
  decidable_of_iff (l.drop (l.length - p.length) = p) Iff.rfl

instance (ov : Nat) (l : List Char) : Decidable (termConfined ov l) :=
  decidable_of_iff
    (∀ i, i < l.length → isTermChar (l.getD i ' ') = true → l.length ≤ i + ov)
    Iff.rfl

instance (cs ov : Nat) (text : List Char) :
    Decidable (overlapClaimAt cs ov text) :=
  decidable_of_iff
    (∀ j, j < (chunkText cs ov text).length - 1 →
      startsWithL (jsTrim ((chunkSeeds cs ov text).getD j ([], [])).2)
        ((chunkText cs ov text).getD (j + 1) defaultChunk).content ∧
      endsWithL (jsTrim ((chunkSeeds cs ov text).getD j ([], [])).2)
        ((chunkText cs ov text).getD j defaultChunk).content ∧
      (jsTrim ((chunkSeeds cs ov text).getD j ([], [])).2).length ≤ ov)
    Iff.rfl

instance (cs ov : Nat) (text : List Char) :
    Decidable (lengthClaimAt cs ov text) :=
  decidable_of_iff
    (ov ≤ cs →
      ∀ c ∈ chunkText cs ov text,
        c.content.length ≤ cs + maxSentLen text ∨
        ∃ s ∈ splitIntoSentences text, c.content = jsTrim s)
    Iff.rfl

/-- Shape invariant of the running buffer of `chunkText` used to bound
chunk lengths: the buffer is empty, or small (a `potential` that passed
the size check), or a freshly seeded `overlap ++ sentence` whose seed
has confined terminators and bounded length (`M` bounds the sentence
lengths of the run). -/
def LenBufInv (cs ov M : Nat) (cur : List Char) : Prop :=
  cur = [] ∨ cur.length ≤ cs ∨
    ∃ seed s, cur = seed ++ s ∧ termConfined ov seed ∧
      seed.length ≤ max cs (ov + M) ∧ s.length ≤ M

/-- Relational invariant of the `chunkText` loop state tying each
sealed chunk to its recorded raw buffer and overlap seed, each later
chunk to the seed of its predecessor, and the running buffer to the
most recent seed. -/
def SeedsInv (ov : Nat) (st : ChunkState) : Prop :=
  st.seeds.length = st.chunks.length ∧
  (∀ j, j < st.seeds.length →
    (st.seeds.getD j ([], [])).2 =
      getOverlapText (st.seeds.getD j ([], [])).1 ov ∧
    (st.chunks.getD j defaultChunk).content =
      jsTrim (st.seeds.getD j ([], [])).1) ∧
  (∀ j, j + 1 < st.chunks.length →
    ∃ u, (st.chunks.getD (j + 1) defaultChunk).content =
      jsTrim ((st.seeds.getD j ([], [])).2) ++ u) ∧
  (st.chunks.length ≠ 0 →
    ∃ u, st.current = (st.seeds.getD (st.seeds.length - 1) ([], [])).2 ++ u)

/-! ## Theorems -/

theorem simOfDistance_bounds (d : ℚ) : 0 ≤ simOfDistance d ∧ simOfDistance d ≤ 1 := by
  unfold simOfDistance
  by_cases h : (0 : ℚ) ≤ d
  · rw [if_pos h]
    rcases le_or_lt d 1 with h1 | h1
    · rw [min_eq_left h1]
      constructor <;> linarith
    · rw [min_eq_right (le_of_lt h1)]
      norm_num
  · rw [if_neg h]
    norm_num

/-- C1: when the RAG enabled flag is false, `indexFile` returns without
reading, chunking, embedding or writing anything (empty action trace,
store unchanged), `deleteFileIndex` returns without deleting anything,
and `searchDocuments` returns the empty sequence, for every input and
every store contents. -/
theorem rag_disabled_is_noop (enabled : Bool) (h : enabled = false)
    (processR : Except (List Char) (List DocumentChunk))
    (embedR : Except (List Char) (List (List ℚ)))
    (fileId originalName : List Char) (col initR : Option Collection)
    (deleteR : Except (List Char) Unit) (topK : Nat)
    (embedQ : Except (List Char) (List ℚ))
    (queryR : Except (List Char) QueryResp) (filter : Option (List Char)) :
    indexFile enabled processR embedR fileId originalName col initR =
      (.ok (), col, []) ∧
    deleteFileIndex enabled deleteR = (.ok (), []) ∧
    searchDocuments enabled topK embedQ col initR queryR filter = ([], []) := by
  subst h
  exact ⟨rfl, rfl, rfl⟩

theorem rag_disabled_is_noop_witness :
    indexFile false (.ok []) (.ok []) [] [] none none = (.ok (), none, []) ∧
    deleteFileIndex false (.ok ()) = (.ok (), []) ∧
    searchDocuments false 5 (.ok []) none none (.ok ⟨none, none, none⟩) none =
      ([], []) :=
  rag_disabled_is_noop false rfl (.ok []) (.ok []) [] [] none none (.ok ()) 5
    (.ok []) (.ok ⟨none, none, none⟩) none

/-- C2: with RAG enabled, when the embedding service returns a number
of embeddings different from the number of chunks, `indexFile` fails
with an error, `addDocuments` is never invoked for that run, and the
store is unchanged. -/
theorem indexFile_mismatch_aborts
    (chunks : List DocumentChunk) (embeddings : List (List ℚ))
    (h1 : chunks.length ≠ 0) (h2 : embeddings.length ≠ chunks.length)
    (fileId originalName : List Char) (col initR : Option Collection) :
    indexFile true (.ok chunks) (.ok embeddings) fileId originalName col initR =
      (.error "Mismatch between chunks and embeddings".toList, col,
        [.processFile, .embedChunks]) ∧
    RagAction.addDocuments ∉
      (indexFile true (.ok chunks) (.ok embeddings) fileId originalName
        col initR).2.2 ∧
    (indexFile true (.ok chunks) (.ok embeddings) fileId originalName
        col initR).2.1 = col := by
  have heq : indexFile true (.ok chunks) (.ok embeddings) fileId originalName
      col initR =
      (.error "Mismatch between chunks and embeddings".toList, col,
        [.processFile, .embedChunks]) := by
    simp [indexFile, h1, h2]
  refine ⟨heq, ?_, ?_⟩
  · rw [heq]
    show RagAction.addDocuments ∉ [RagAction.processFile, RagAction.embedChunks]
    decide
  · rw [heq]

theorem indexFile_mismatch_aborts_witness :
    indexFile true (.ok [defaultChunk]) (.ok []) [] [] none none =
      (.error "Mismatch between chunks and embeddings".toList, none,
        [.processFile, .embedChunks]) ∧
    RagAction.addDocuments ∉
      (indexFile true (.ok [defaultChunk]) (.ok []) [] [] none none).2.2 ∧
    (indexFile true (.ok [defaultChunk]) (.ok []) [] [] none none).2.1 = none :=
  indexFile_mismatch_aborts [defaultChunk] [] (by decide) (by decide) [] [] none none

/-- C3: `searchSimilar` is a total function that returns the empty
sequence whenever the backing collection is unavailable (even after the
initialisation retry) or the backend query fails, and
`getDocumentCount` is total and returns 0 whenever the collection is
unavailable or counting fails. -/
theorem store_failures_degrade
    (col initR : Option Collection) (queryR : Except (List Char) QueryResp)
    (qe : List ℚ) (topK : Nat) (filter : Option (List Char))
    (countR : Except (List Char) Nat) :
    (effectiveCollection col initR = none →
      searchSimilar col initR queryR qe topK filter = []) ∧
    (∀ e, queryR = .error e →
      searchSimilar col initR queryR qe topK filter = []) ∧
    (effectiveCollection col initR = none →
      getDocumentCount col initR countR = 0) ∧
    (∀ e, countR = .error e → getDocumentCount col initR countR = 0) := by
  refine ⟨?_, ?_, ?_, ?_⟩
  · intro h
    simp [searchSimilar, h]
  · intro e he
    subst he
    cases hc : effectiveCollection col initR <;> simp [searchSimilar, hc]
  · intro h
    simp [getDocumentCount, h]
  · intro e he
    subst he
    cases hc : effectiveCollection col initR <;> simp [getDocumentCount, hc]

theorem store_failures_degrade_witness :
    searchSimilar none none (.error []) [] 5 none = [] ∧
    getDocumentCount none none (.error []) = 0 :=
  ⟨(store_failures_degrade none none (.error []) [] 5 none (.error [])).1 rfl,
   (store_failures_degrade none none (.error []) [] 5 none (.error [])).2.2.2 [] rfl⟩

/-- C10: `getStats` is total and returns 0 whenever RAG is disabled
(regardless of store contents) or whenever obtaining the count fails
(collection unavailable or backend count error), and otherwise returns
the store's document count. -/
theorem getStats_degrades (enabled : Bool) (col initR : Option Collection)
    (countR : Except (List Char) Nat) :
    (enabled = false → getStats enabled col initR countR = 0) ∧
    (∀ e, countR = .error e → getStats enabled col initR countR = 0) ∧
    (effectiveCollection col initR = none →
      getStats enabled col initR countR = 0) ∧
    (∀ c n, effectiveCollection col initR = some c → countR = .ok n →
      enabled = true → getStats enabled col initR countR = n) := by
  refine ⟨?_, ?_, ?_, ?_⟩
  · intro h
    subst h
    rfl
  · intro e he
    subst he
    cases enabled
    · rfl
    · cases hc : effectiveCollection col initR <;>
        simp [getStats, getDocumentCount, hc]
  · intro h
    cases enabled
    · rfl
    · simp [getStats, getDocumentCount, h]
  · intro c n hc hn he
    subst he
    subst hn
    simp [getStats, getDocumentCount, hc]

theorem getStats_degrades_witness :
    getStats false (some [])  none (.ok 7) = 0 ∧
    getStats true (some []) none (.error []) = 0 ∧
    getStats true none none (.ok 7) = 0 ∧
    getStats true (some []) none (.ok 7) = 7 :=
  ⟨(getStats_degrades false (some []) none (.ok 7)).1 rfl,
   (getStats_degrades true (some []) none (.error [])).2.1 [] rfl,
   (getStats_degrades true none none (.ok 7)).2.2.1 rfl,
   (getStats_degrades true (some []) none (.ok 7)).2.2.2 [] 7 rfl rfl rfl⟩

/-- C4 counterexample: a backend row with raw distance -1 is mapped by
`searchDocuments` to similarity 0, while the claimed formula
`1 - min(distance, 1)` gives 2, so the claim fails as stated for
negative distances. -/
theorem similarity_formula_cex :
    ((searchDocuments true 5 (.ok [(1 : ℚ)]) (some []) none
        (.ok ⟨some [['a']], some [defaultMetadata], some [(-1 : ℚ)]⟩) none).1.map
      (fun r => r.similarity)) = [0] ∧
    (1 - min (-1 : ℚ) 1 : ℚ) = 2 ∧ ((0 : ℚ) ≠ 2) := by
  refine ⟨by decide, by norm_num, by norm_num⟩

/-- C4 amended: every similarity produced by `searchDocuments` lies in
[0, 1]; it equals `1 - min(distance, 1)` for nonnegative raw distances
and 0 for negative raw distances. -/
theorem searchDocuments_similarity_amended (enabled : Bool) (topK : Nat)
    (embedQ : Except (List Char) (List ℚ)) (col initR : Option Collection)
    (queryR : Except (List Char) QueryResp) (filter : Option (List Char)) :
    (∀ r ∈ (searchDocuments enabled topK embedQ col initR queryR filter).1,
        0 ≤ r.similarity ∧ r.similarity ≤ 1) ∧
    (∀ d : ℚ, 0 ≤ d → simOfDistance d = 1 - min d 1) ∧
    (∀ d : ℚ, d < 0 → simOfDistance d = 0) := by
  refine ⟨?_, ?_, ?_⟩
  · intro r hr
    unfold searchDocuments at hr
    split at hr
    · simp at hr
    · split at hr
      · simp at hr
      · simp only [List.mem_map] at hr
        obtain ⟨row, _, rfl⟩ := hr
        exact simOfDistance_bounds _
  · intro d hd
    simp [simOfDistance, hd]
  · intro d hd
    simp [simOfDistance, not_le.mpr hd]

theorem searchDocuments_similarity_amended_witness :
    (0 ≤ (SearchResult.mk ['a'] defaultMetadata 0).similarity ∧
      (SearchResult.mk ['a'] defaultMetadata 0).similarity ≤ 1) ∧
    simOfDistance (1 / 2 : ℚ) = 1 - min (1 / 2 : ℚ) 1 ∧
    simOfDistance (-3 : ℚ) = 0 :=
  ⟨(searchDocuments_similarity_amended true 5 (.ok [(1 : ℚ)]) (some []) none
      (.ok ⟨some [['a']], some [defaultMetadata], some [(-1 : ℚ)]⟩) none).1
      ⟨['a'], defaultMetadata, 0⟩ (by decide),
   (searchDocuments_similarity_amended true 5 (.ok [(1 : ℚ)]) (some []) none
      (.ok ⟨some [['a']], some [defaultMetadata], some [(-1 : ℚ)]⟩) none).2.1
      (1 / 2) (by norm_num),
   (searchDocuments_similarity_amended true 5 (.ok [(1 : ℚ)]) (some []) none
      (.ok ⟨some [['a']], some [defaultMetadata], some [(-1 : ℚ)]⟩) none).2.2
      (-3) (by norm_num)⟩

/-- C8 counterexample: with the provider answering 503, 503, then a
valid embedding, `generateHuggingFaceEmbedding` makes three provider
calls, refuting the claim that at most two calls are made per request;
each 503 is retried, not only the first. -/
theorem hf_retry_cex :
    (generateHuggingFaceEmbedding
        [.http503, .http503, .ok (.arr1 [1])]).2.1 = 3 ∧
    ¬ (generateHuggingFaceEmbedding
        [.http503, .http503, .ok (.arr1 [1])]).2.1 ≤ 2 ∧
    (generateHuggingFaceEmbedding [.http503, .http503, .ok (.arr1 [1])]).1 =
      some (.ok [1]) := by
  refine ⟨rfl, by decide, rfl⟩

/-- C8 amended: every 503 response triggers a 10-second wait and an
unconditional retry with no retry counter, so the number of provider
calls equals one plus the number of consecutive leading 503 responses
(clipped by the available response stream); the operation terminates
precisely when some response is not a 503.  The batch variant has the
same retry structure. -/
theorem hf_retry_unbounded (rs : List HfResp) :
    (generateHuggingFaceEmbedding rs).2.1 = min (leading503 rs + 1) rs.length ∧
    (generateHuggingFaceEmbedding rs).2.2 =
      List.replicate (min (leading503 rs) rs.length) 10000 ∧
    ((generateHuggingFaceEmbedding rs).1.isSome ↔ leading503 rs < rs.length) ∧
    (generateHuggingFaceEmbeddings rs).2.1 =
      min (leading503 rs + 1) rs.length := by
  induction rs with
  | nil =>
    simp [generateHuggingFaceEmbedding, generateHuggingFaceEmbeddings, leading503]
  | cons r rs ih =>
    obtain ⟨ih1, ih2, ih3, ih4⟩ := ih
    cases r with
    | http503 =>
      have hmin1 : min (leading503 rs + 1 + 1) (rs.length + 1) =
          min (leading503 rs + 1) rs.length + 1 := by omega
      have hmin2 : min (leading503 rs + 1) (rs.length + 1) =
          min (leading503 rs) rs.length + 1 := by omega
      refine ⟨?_, ?_, ?_, ?_⟩
      · simp only [generateHuggingFaceEmbedding, leading503, List.length_cons,
          hmin1]
        omega
      · simp only [generateHuggingFaceEmbedding, leading503, List.length_cons,
          hmin2, List.replicate_succ, ih2]
      · simp only [generateHuggingFaceEmbedding, leading503, List.length_cons]
        rw [ih3]
        omega
      · simp only [generateHuggingFaceEmbeddings, leading503, List.length_cons,
          hmin1]
        omega
    | httpOther s =>
      have hmin : min (0 + 1) (rs.length + 1) = 1 := by omega
      have hmin0 : min 0 (rs.length + 1) = 0 := by omega
      refine ⟨?_, ?_, ?_, ?_⟩
      · simp only [generateHuggingFaceEmbedding, leading503, List.length_cons,
          hmin]
      · simp only [generateHuggingFaceEmbedding, leading503, List.length_cons,
          hmin0, List.replicate_zero]
      · simp [generateHuggingFaceEmbedding, leading503]
      · simp only [generateHuggingFaceEmbeddings, leading503, List.length_cons,
          hmin]
    | ok d =>
      have hmin : min (0 + 1) (rs.length + 1) = 1 := by omega
      have hmin0 : min 0 (rs.length + 1) = 0 := by omega
      refine ⟨?_, ?_, ?_, ?_⟩
      · simp only [generateHuggingFaceEmbedding, leading503, List.length_cons,
          hmin]
      · simp only [generateHuggingFaceEmbedding, leading503, List.length_cons,
          hmin0, List.replicate_zero]
      · simp [generateHuggingFaceEmbedding, leading503]
      · simp only [generateHuggingFaceEmbeddings, leading503, List.length_cons,
          hmin]

/-- C9: both chat backends build the provider request from the window
of the 10 most recent history entries with error-role entries removed
from it: the selected messages agree between the two backends, form a
sub-sequence of that window (itself a sub-sequence of the history), at
most 10 messages survive, every surviving message comes from the
window and is not error-role, every non-error message of the window
survives, and the custom backend's request without a system prompt is
exactly the trimmed history. -/
theorem chat_history_window (messages : List MessageDto) :
    geminiRecentMessages messages = customRecentMessages messages ∧
    List.Sublist (geminiRecentMessages messages) (jsSliceLast 10 messages) ∧
    List.Sublist (jsSliceLast 10 messages) messages ∧
    (geminiRecentMessages messages).length ≤ 10 ∧
    (∀ m ∈ geminiRecentMessages messages,
        m ∈ jsSliceLast 10 messages ∧ m.role ≠ errorRole) ∧
    (∀ m ∈ jsSliceLast 10 messages, m.role ≠ errorRole →
        m ∈ geminiRecentMessages messages) ∧
    customChatMessages none messages = customRecentMessages messages := by
  refine ⟨rfl, List.filter_sublist _, List.drop_sublist _ _, ?_, ?_, ?_, ?_⟩
  · have h1 := List.length_filter_le (fun m => m.role != errorRole)
      (jsSliceLast 10 messages)
    have h2 : (jsSliceLast 10 messages).length ≤ 10 := by
      simp only [jsSliceLast, List.length_drop]
      omega
    exact le_trans h1 h2
  · intro m hm
    rw [geminiRecentMessages, List.mem_filter] at hm
    refine ⟨hm.1, ?_⟩
    simpa using hm.2
  · intro m hm hne
    rw [geminiRecentMessages, List.mem_filter]
    exact ⟨hm, by simpa using hne⟩
  · have hmap : ∀ l : List MessageDto,
        l.map (fun m => (⟨m.role, m.content⟩ : MessageDto)) = l := by
      intro l
      induction l with
      | nil => rfl
      | cons a t ih => simp [ih]
    simp [customChatMessages, hmap]

theorem chat_history_window_witness :
    ((⟨"user".toList, "hi".toList⟩ : MessageDto) ∈
      geminiRecentMessages [⟨"user".toList, "hi".toList⟩]) ∧
    ((⟨"user".toList, "hi".toList⟩ : MessageDto) ∈
        jsSliceLast 10 [(⟨"user".toList, "hi".toList⟩ : MessageDto)] ∧
      (⟨"user".toList, "hi".toList⟩ : MessageDto).role ≠ errorRole) :=
  ⟨(chat_history_window [⟨"user".toList, "hi".toList⟩]).2.2.2.2.2.1
      ⟨"user".toList, "hi".toList⟩ (by decide) (by decide),
   (chat_history_window [⟨"user".toList, "hi".toList⟩]).2.2.2.2.1
      ⟨"user".toList, "hi".toList⟩ (by decide)⟩

/-! ### Fallback-embedding lemmas -/

theorem splitWsN_ne_nil : ∀ (n : Nat) (l acc : List Char), splitWsN n acc l ≠ [] := by
  intro n
  induction n with
  | zero =>
    intro l acc
    cases l <;> simp [splitWsN]
  | succ n ih =>
    intro l acc
    cases l with
    | nil => simp [splitWsN]
    | cons c cz =>
      rw [splitWsN]
      by_cases hc : isWsChar c
      · simp [hc]
      · rw [if_neg hc]
        exact ih cz (c :: acc)

theorem splitWs_ne_nil (l : List Char) : splitWs l ≠ [] := splitWsN_ne_nil l.length l []

theorem fold_bump_length (ws : List (List Char)) (d : ℚ) (emb : List ℚ) :
    (ws.foldl (fun e w => bumpAt e (simpleHash w % 384) d) emb).length =
      emb.length := by
  induction ws generalizing emb with
  | nil => rfl
  | cons w t ih =>
    simp only [List.foldl_cons]
    rw [ih]
    simp [bumpAt]

theorem sumQ_cons (a : ℚ) (l : List ℚ) : sumQ (a :: l) = a + sumQ l := rfl

theorem sumSqQ_cons (a : ℚ) (l : List ℚ) : sumSqQ (a :: l) = a * a + sumSqQ l := rfl

theorem sumQ_bumpAt (l : List ℚ) (i : Nat) (hi : i < l.length) (d : ℚ) :
    sumQ (bumpAt l i d) = sumQ l + d := by
  induction l generalizing i with
  | nil => simp at hi
  | cons a t ih =>
    cases i with
    | zero =>
      have hset : bumpAt (a :: t) 0 d = (a + d) :: t := by
        simp [bumpAt, List.set]
      rw [hset, sumQ_cons, sumQ_cons]
      ring
    | succ i =>
      simp only [List.length_cons, Nat.succ_lt_succ_iff] at hi
      have hset : bumpAt (a :: t) (i + 1) d = a :: bumpAt t i d := by
        simp [bumpAt, List.set, List.getD_cons_succ]
      rw [hset, sumQ_cons, sumQ_cons, ih i hi]
      ring

theorem fold_bump_sum (ws : List (List Char)) (d : ℚ) (emb : List ℚ)
    (h : emb.length = 384) :
    sumQ (ws.foldl (fun e w => bumpAt e (simpleHash w % 384) d) emb) =
      sumQ emb + ws.length * d := by
  induction ws generalizing emb with
  | nil => simp
  | cons w t ih =>
    simp only [List.foldl_cons]
    have hlen : (bumpAt emb (simpleHash w % 384) d).length = 384 := by
      simp [bumpAt, h]
    rw [ih _ hlen, sumQ_bumpAt emb _ (by rw [h]; exact Nat.mod_lt _ (by norm_num)) d]
    simp only [List.length_cons]
    push_cast
    ring

theorem fold_bump_nonneg (ws : List (List Char)) (d : ℚ) (hd : 0 ≤ d)
    (emb : List ℚ) (h : ∀ x ∈ emb, 0 ≤ x) :
    ∀ x ∈ ws.foldl (fun e w => bumpAt e (simpleHash w % 384) d) emb, 0 ≤ x := by
  induction ws generalizing emb with
  | nil => exact h
  | cons w t ih =>
    simp only [List.foldl_cons]
    apply ih
    intro x hx
    rcases List.mem_or_eq_of_mem_set hx with h1 | rfl
    · exact h x h1
    · by_cases hlt : simpleHash w % 384 < emb.length
      · have hm : emb.getD (simpleHash w % 384) 0 ∈ emb := by
          rw [List.getD_eq_getElem?_getD, List.getElem?_eq_getElem hlt]
          exact List.getElem_mem _
        have := h _ hm
        linarith
      · rw [List.getD_eq_default]
        · linarith
        · omega

theorem sumQ_replicate_zero (n : Nat) : sumQ (List.replicate n (0 : ℚ)) = 0 := by
  induction n with
  | zero => rfl
  | succ n ih => rw [List.replicate_succ, sumQ_cons, ih]; ring

theorem sumSqQ_nonneg (l : List ℚ) : 0 ≤ sumSqQ l := by
  induction l with
  | nil => simp [sumSqQ]
  | cons a t ih =>
    rw [sumSqQ_cons]
    nlinarith [sq_nonneg a]

theorem sumSqQ_pos (l : List ℚ) (hnn : ∀ x ∈ l, 0 ≤ x) (hs : 0 < sumQ l) :
    0 < sumSqQ l := by
  induction l with
  | nil => simp [sumQ] at hs
  | cons a t ih =>
    have ha := hnn a (List.mem_cons_self a t)
    rw [sumQ_cons] at hs
    rw [sumSqQ_cons]
    have hnn2 : ∀ x ∈ t, 0 ≤ x := fun x hx => hnn x (List.mem_cons_of_mem a hx)
    rcases eq_or_lt_of_le ha with ha0 | hapos
    · have hst : 0 < sumQ t := by rw [← ha0] at hs; simpa using hs
      have := ih hnn2 hst
      nlinarith
    · have := sumSqQ_nonneg t
      nlinarith

theorem sumSq_div_cast (l : List ℚ) (c : ℝ) (hc : c ≠ 0) :
    ((l.map (fun (v : ℚ) => (v : ℝ) / c)).map (fun x => x ^ 2)).sum =
      ((sumSqQ l : ℚ) : ℝ) / c ^ 2 := by
  induction l with
  | nil => simp [sumSqQ]
  | cons a t ih =>
    simp only [List.map_cons, List.sum_cons, ih, sumSqQ_cons]
    push_cast
    field_simp
    ring

/-- C7: the offline fallback embedding is a pure deterministic function
of the input text: repeated evaluation gives identical vectors; the
accumulator has exactly 384 slots; its squared magnitude is strictly
positive for every input (including the empty text, whose single empty
token lands in bucket 0); and the normalised vector emitted by
`fallbackEmbedding` has squared L2 norm exactly 1. -/
theorem fallback_embedding_deterministic_unit (text : List Char) :
    fallbackRaw text = fallbackRaw text ∧
    (fallbackRaw text).length = 384 ∧
    0 < fallbackMagnitudeSq text ∧
    (((fallbackRaw text).map (fun (v : ℚ) =>
        if 0 < fallbackMagnitudeSq text
        then (v : ℝ) / Real.sqrt (fallbackMagnitudeSq text)
        else 0)).map (fun x => x ^ 2)).sum = 1 := by
  have hlen : (fallbackRaw text).length = 384 := by
    unfold fallbackRaw
    rw [fold_bump_length, List.length_replicate]
  have hne : splitWs (toLowerText text) ≠ [] := splitWs_ne_nil _
  have hn : 0 < (splitWs (toLowerText text)).length := List.length_pos.mpr hne
  have hwpos : 0 < fallbackWeight text := by
    unfold fallbackWeight
    rw [if_neg (by omega)]
    positivity
  have hsum : sumQ (fallbackRaw text) = 1 := by
    unfold fallbackRaw
    rw [fold_bump_sum _ _ _ (List.length_replicate 384 0), sumQ_replicate_zero]
    unfold fallbackWeight
    rw [if_neg (by omega)]
    have hq : ((splitWs (toLowerText text)).length : ℚ) ≠ 0 := by
      exact_mod_cast Nat.pos_iff_ne_zero.mp hn
    field_simp
  have hnn : ∀ x ∈ fallbackRaw text, 0 ≤ x := by
    unfold fallbackRaw
    apply fold_bump_nonneg
    · exact le_of_lt hwpos
    · intro x hx
      rw [List.eq_of_mem_replicate hx]
  have hpos : 0 < fallbackMagnitudeSq text := by
    unfold fallbackMagnitudeSq
    exact sumSqQ_pos _ hnn (by rw [hsum]; norm_num)
  refine ⟨rfl, hlen, hpos, ?_⟩
  have hcast : (0 : ℝ) < ((fallbackMagnitudeSq text : ℚ) : ℝ) := by
    exact_mod_cast hpos
  have hsqrt : Real.sqrt ((fallbackMagnitudeSq text : ℚ) : ℝ) ≠ 0 :=
    ne_of_gt (Real.sqrt_pos.mpr hcast)
  simp only [if_pos hpos]
  rw [sumSq_div_cast _ _ hsqrt, Real.sq_sqrt (le_of_lt hcast)]
  exact div_self (ne_of_gt hcast)

/-! ### Trim lemmas -/

theorem dropWhile_len_le (p : Char → Bool) (l : List Char) :
    (l.dropWhile p).length ≤ l.length := by
  induction l with
  | nil => simp
  | cons a as ih =>
    by_cases h : p a
    · rw [List.dropWhile_cons, if_pos h]
      simp only [List.length_cons]
      omega
    · simp [List.dropWhile_cons, h]

theorem trimLeft_length_le (l : List Char) : (trimLeft l).length ≤ l.length :=
  dropWhile_len_le isWsChar l

theorem trimRight_length_le (l : List Char) : (trimRight l).length ≤ l.length := by
  unfold trimRight
  rw [List.length_reverse]
  have := dropWhile_len_le isWsChar l.reverse
  rw [List.length_reverse] at this
  exact this

theorem jsTrim_length_le (l : List Char) : (jsTrim l).length ≤ l.length :=
  le_trans (trimRight_length_le _) (trimLeft_length_le l)

theorem trimLeft_decomp (l : List Char) :
    l.takeWhile isWsChar ++ trimLeft l = l :=
  List.takeWhile_append_dropWhile isWsChar l

theorem trimRight_decomp (l : List Char) :
    trimRight l ++ (l.reverse.takeWhile isWsChar).reverse = l := by
  unfold trimRight
  rw [← List.reverse_append, List.takeWhile_append_dropWhile, List.reverse_reverse]

theorem trimLeft_eq_nil_iff (l : List Char) :
    trimLeft l = [] ↔ ∀ c ∈ l, isWsChar c := by
  unfold trimLeft
  exact List.dropWhile_eq_nil_iff

theorem trimRight_eq_nil_iff (l : List Char) :
    trimRight l = [] ↔ ∀ c ∈ l, isWsChar c := by
  unfold trimRight
  rw [List.reverse_eq_nil_iff, List.dropWhile_eq_nil_iff]
  constructor
  · intro h c hc
    exact h c (List.mem_reverse.mpr hc)
  · intro h c hc
    exact h c (List.mem_reverse.mp hc)

theorem trimLeft_append_pos (a b : List Char) (h : trimLeft a ≠ []) :
    trimLeft (a ++ b) = trimLeft a ++ b := by
  unfold trimLeft at h ⊢
  rw [List.dropWhile_append, if_neg]
  simpa [List.isEmpty_iff] using h

theorem trimLeft_append_nil (a b : List Char) (h : trimLeft a = []) :
    trimLeft (a ++ b) = trimLeft b := by
  unfold trimLeft at h ⊢
  rw [List.dropWhile_append, if_pos]
  simp [List.isEmpty_iff, h]

theorem trimRight_append_pos (a b : List Char) (h : trimRight b ≠ []) :
    trimRight (a ++ b) = a ++ trimRight b := by
  have hb : b.reverse.dropWhile isWsChar ≠ [] := by
    intro hx
    apply h
    unfold trimRight
    rw [hx]
    rfl
  unfold trimRight
  rw [List.reverse_append, List.dropWhile_append, if_neg (by simpa [List.isEmpty_iff] using hb),
    List.reverse_append, List.reverse_reverse]

theorem trimRight_append_nil (a b : List Char) (h : trimRight b = []) :
    trimRight (a ++ b) = trimRight a := by
  have hb : b.reverse.dropWhile isWsChar = [] := by
    unfold trimRight at h
    rwa [List.reverse_eq_nil_iff] at h
  unfold trimRight
  rw [List.reverse_append, List.dropWhile_append, if_pos (by simp [List.isEmpty_iff, hb])]

theorem dropWhile_head_not (p : Char → Bool) (l : List Char) (c : Char)
    (r : List Char) (h : l.dropWhile p = c :: r) : p c = false := by
  induction l with
  | nil => simp at h
  | cons a t ih =>
    rw [List.dropWhile_cons] at h
    by_cases hp : p a
    · rw [if_pos hp] at h
      exact ih h
    · rw [if_neg hp] at h
      have : a = c := (List.cons_eq_cons.mp h).1
      rw [← this]
      simpa using hp

theorem trimRight_of_headNotWs (x : List Char) (c : Char) (r : List Char)
    (hx : x = c :: r) (hc : isWsChar c = false) : trimRight x ≠ [] := by
  intro hnil
  have hall := (trimRight_eq_nil_iff x).mp hnil
  have := hall c (by rw [hx]; exact List.mem_cons_self c r)
  simp [this] at hc

theorem jsTrim_append_pre (s t : List Char) :
    ∃ u, jsTrim (s ++ t) = jsTrim s ++ u := by
  by_cases hs : trimLeft s = []
  · refine ⟨jsTrim (s ++ t), ?_⟩
    have : jsTrim s = [] := by
      unfold jsTrim
      rw [hs]
      rfl
    rw [this, List.nil_append]
  · unfold jsTrim
    rw [trimLeft_append_pos s t hs]
    by_cases ht : trimRight t = []
    · rw [trimRight_append_nil _ _ ht]
      exact ⟨[], by rw [List.append_nil]⟩
    · rw [trimRight_append_pos _ _ ht]
      obtain ⟨w, hw⟩ : ∃ w, trimLeft s = trimRight (trimLeft s) ++ w :=
        ⟨((trimLeft s).reverse.takeWhile isWsChar).reverse,
          (trimRight_decomp (trimLeft s)).symm⟩
      refine ⟨w ++ trimRight t, ?_⟩
      conv_lhs => rw [hw]
      rw [List.append_assoc]

theorem jsTrim_drop_suf (l : List Char) (n : Nat) :
    ∃ u, jsTrim l = u ++ jsTrim (l.drop n) := by
  have hl : l.take n ++ l.drop n = l := List.take_append_drop n l
  by_cases hb : trimLeft (l.drop n) = []
  · have hnil : jsTrim (l.drop n) = [] := by
      unfold jsTrim
      rw [hb]
      rfl
    exact ⟨jsTrim l, by rw [hnil, List.append_nil]⟩
  · by_cases ha : trimLeft (l.take n) = []
    · refine ⟨[], ?_⟩
      conv_lhs => rw [← hl]
      unfold jsTrim
      rw [trimLeft_append_nil _ _ ha, List.nil_append]
    · -- the head of trimLeft (l.drop n) is not whitespace, so its
      -- right trim is nonempty
      obtain ⟨c, r, hcr⟩ : ∃ c r, trimLeft (l.drop n) = c :: r := by
        cases hx : trimLeft (l.drop n) with
        | nil => exact absurd hx hb
        | cons c r => exact ⟨c, r, rfl⟩
      have hc : isWsChar c = false := dropWhile_head_not isWsChar _ c r hcr
      have htr : trimRight (trimLeft (l.drop n)) ≠ [] :=
        trimRight_of_headNotWs _ c r hcr hc
      have hdec : ∃ w, trimRight (l.drop n) =
          w ++ trimRight (trimLeft (l.drop n)) := by
        refine ⟨(l.drop n).takeWhile isWsChar, ?_⟩
        conv_lhs => rw [← trimLeft_decomp (l.drop n)]
        rw [trimRight_append_pos _ _ htr]
      obtain ⟨w, hw⟩ := hdec
      refine ⟨trimLeft (l.take n) ++ w, ?_⟩
      conv_lhs => rw [← hl]
      unfold jsTrim
      rw [trimLeft_append_pos _ _ ha]
      have htrd : trimRight (l.drop n) ≠ [] := by
        rw [hw]
        intro hx
        exact htr (List.append_eq_nil.mp hx).2
      rw [trimRight_append_pos _ _ htrd, hw, List.append_assoc]

theorem dropWhile_idem (p : Char → Bool) (l : List Char) :
    (l.dropWhile p).dropWhile p = l.dropWhile p := by
  cases h : l.dropWhile p with
  | nil => rfl
  | cons c r =>
    have := dropWhile_head_not p l c r h
    rw [List.dropWhile_cons, this]
    simp

theorem trimRight_idem (l : List Char) : trimRight (trimRight l) = trimRight l := by
  unfold trimRight
  rw [List.reverse_reverse, dropWhile_idem]

theorem jsTrim_idem (l : List Char) : jsTrim (jsTrim l) = jsTrim l := by
  by_cases h : jsTrim l = []
  · rw [h]
    rfl
  · have h1 : trimLeft (jsTrim l) = jsTrim l := by
      -- jsTrim l is a prefix of trimLeft l, whose head is not whitespace
      obtain ⟨c, r, hcr⟩ : ∃ c r, jsTrim l = c :: r := by
        cases hx : jsTrim l with
        | nil => exact absurd hx h
        | cons c r => exact ⟨c, r, rfl⟩
      have hpre : trimRight (trimLeft l) ++
          ((trimLeft l).reverse.takeWhile isWsChar).reverse = trimLeft l :=
        trimRight_decomp (trimLeft l)
      have hhead : ∃ r2, trimLeft l = c :: r2 := by
        unfold jsTrim at hcr
        rw [← hpre, hcr]
        exact ⟨r ++ ((trimLeft l).reverse.takeWhile isWsChar).reverse, rfl⟩
      obtain ⟨r2, hr2⟩ := hhead
      have hc : isWsChar c = false := dropWhile_head_not isWsChar l c r2 hr2
      rw [hcr]
      show List.dropWhile isWsChar (c :: r) = c :: r
      rw [List.dropWhile_cons, hc]
      simp
    show trimRight (trimLeft (jsTrim l)) = jsTrim l
    rw [h1]
    exact trimRight_idem (trimLeft l)

/-! ### Terminator-confinement lemmas -/

theorem termConfined_of_le (ov : Nat) (l : List Char) (h : l.length ≤ ov) :
    termConfined ov l := by
  intro i _ _
  omega

theorem termConfined_trimLeft (ov : Nat) (l : List Char)
    (h : termConfined ov l) : termConfined ov (trimLeft l) := by
  intro i hi ht
  set w := l.takeWhile isWsChar with hwdef
  have hdec : w ++ trimLeft l = l := trimLeft_decomp l
  have hget : l.getD (w.length + i) ' ' = (trimLeft l).getD i ' ' := by
    conv_lhs => rw [← hdec]
    rw [List.getD_append_right _ _ _ _ (by omega)]
    congr 1
    omega
  have hlen : l.length = w.length + (trimLeft l).length := by
    conv_lhs => rw [← hdec]
    rw [List.length_append]
  have := h (w.length + i) (by omega) (by rw [hget]; exact ht)
  omega

theorem termConfined_trimRight (ov : Nat) (l : List Char)
    (h : termConfined ov l) : termConfined ov (trimRight l) := by
  intro i hi ht
  set u := (l.reverse.takeWhile isWsChar).reverse with hudef
  have hdec : trimRight l ++ u = l := trimRight_decomp l
  have hget : l.getD i ' ' = (trimRight l).getD i ' ' := by
    conv_lhs => rw [← hdec]
    rw [List.getD_append _ _ _ _ hi]
  have hlen : (trimRight l).length ≤ l.length := trimRight_length_le l
  have := h i (by omega) (by rw [hget]; exact ht)
  omega

theorem termConfined_jsTrim (ov : Nat) (l : List Char)
    (h : termConfined ov l) : termConfined ov (jsTrim l) :=
  termConfined_trimRight ov _ (termConfined_trimLeft ov l h)

/-! ### Last-terminator lemmas -/

theorem lastTermIn_none (l : List Char) (h : lastTermIn l = none) :
    ∀ k, k < l.length → isTermChar (l.getD k ' ') = false := by
  induction l with
  | nil => intro k hk; simp at hk
  | cons c cz ih =>
    intro k hk
    unfold lastTermIn at h
    cases hcz : lastTermIn cz with
    | some j => rw [hcz] at h; simp at h
    | none =>
      rw [hcz] at h
      by_cases hc : isTermChar c
      · rw [if_pos hc] at h; simp at h
      · cases k with
        | zero => simpa using hc
        | succ k =>
          rw [List.getD_cons_succ]
          exact ih hcz k (by simpa using hk)

theorem lastTermIn_some (l : List Char) (i : Nat) (h : lastTermIn l = some i) :
    i < l.length ∧ isTermChar (l.getD i ' ') = true ∧
    ∀ k, i < k → k < l.length → isTermChar (l.getD k ' ') = false := by
  induction l generalizing i with
  | nil => simp [lastTermIn] at h
  | cons c cz ih =>
    unfold lastTermIn at h
    cases hcz : lastTermIn cz with
    | some j =>
      rw [hcz] at h
      have hij : i = j + 1 := by simpa using h.symm
      subst hij
      obtain ⟨h1, h2, h3⟩ := ih j hcz
      refine ⟨by simpa using h1, by rwa [List.getD_cons_succ], ?_⟩
      intro k hk1 hk2
      cases k with
      | zero => omega
      | succ k =>
        rw [List.getD_cons_succ]
        exact h3 k (by omega) (by simpa using hk2)
    | none =>
      rw [hcz] at h
      by_cases hc : isTermChar c
      · rw [if_pos hc] at h
        have hi0 : i = 0 := by simpa using h.symm
        subst hi0
        refine ⟨by simp, by simpa using hc, ?_⟩
        intro k hk1 hk2
        cases k with
        | zero => omega
        | succ k =>
          rw [List.getD_cons_succ]
          exact lastTermIn_none cz hcz k (by simpa using hk2)
      · rw [if_neg hc] at h
        simp at h

/-! ### Overlap-text lemmas -/

theorem getD_take_lt (l : List Char) (n i : Nat) (h : i < n) (d : Char) :
    (l.take n).getD i d = l.getD i d := by
  rw [List.getD_eq_getElem?_getD, List.getD_eq_getElem?_getD, List.getElem?_take,
    if_pos h]

theorem getD_drop_add (l : List Char) (n k : Nat) (d : Char) :
    (l.drop n).getD k d = l.getD (n + k) d := by
  rw [List.getD_eq_getElem?_getD, List.getD_eq_getElem?_getD, List.getElem?_drop]

theorem getOverlapText_eq_some (c : List Char) (ov i : Nat)
    (h : ¬ c.length ≤ ov)
    (hlt : lastTermIn (c.take (c.length - ov + 1)) = some i) :
    getOverlapText c ov = jsTrim (c.drop (i + 1)) := by
  unfold getOverlapText
  rw [if_neg h]
  simp only [hlt]

theorem getOverlapText_eq_none (c : List Char) (ov : Nat)
    (h : ¬ c.length ≤ ov)
    (hlt : lastTermIn (c.take (c.length - ov + 1)) = none) :
    getOverlapText c ov = jsTrim (c.drop (c.length - ov)) := by
  unfold getOverlapText
  rw [if_neg h]
  simp only [hlt]

theorem getOverlapText_length_le (c : List Char) (ov : Nat) :
    (getOverlapText c ov).length ≤ c.length := by
  by_cases h : c.length ≤ ov
  · unfold getOverlapText
    rw [if_pos h]
  · cases hlt : lastTermIn (c.take (c.length - ov + 1)) with
    | some i =>
      rw [getOverlapText_eq_some _ _ _ h hlt]
      have h1 := jsTrim_length_le (c.drop (i + 1))
      rw [List.length_drop] at h1
      omega
    | none =>
      rw [getOverlapText_eq_none _ _ h hlt]
      have h1 := jsTrim_length_le (c.drop (c.length - ov))
      rw [List.length_drop] at h1
      omega

theorem getOverlapText_suffix (c : List Char) (ov : Nat) :
    ∃ u, jsTrim c = u ++ jsTrim (getOverlapText c ov) := by
  by_cases h : c.length ≤ ov
  · unfold getOverlapText
    rw [if_pos h]
    exact ⟨[], by simp⟩
  · cases hlt : lastTermIn (c.take (c.length - ov + 1)) with
    | some i =>
      rw [getOverlapText_eq_some _ _ _ h hlt]
      obtain ⟨u, hu⟩ := jsTrim_drop_suf c (i + 1)
      exact ⟨u, by rw [jsTrim_idem]; exact hu⟩
    | none =>
      rw [getOverlapText_eq_none _ _ h hlt]
      obtain ⟨u, hu⟩ := jsTrim_drop_suf c (c.length - ov)
      exact ⟨u, by rw [jsTrim_idem]; exact hu⟩

theorem getOverlapText_termConfined (c : List Char) (ov : Nat) :
    termConfined ov (getOverlapText c ov) := by
  by_cases h : c.length ≤ ov
  · unfold getOverlapText
    rw [if_pos h]
    exact termConfined_of_le ov c h
  · cases hlt : lastTermIn (c.take (c.length - ov + 1)) with
    | none =>
      rw [getOverlapText_eq_none _ _ h hlt]
      apply termConfined_of_le
      have h1 := jsTrim_length_le (c.drop (c.length - ov))
      rw [List.length_drop] at h1
      omega
    | some i =>
      rw [getOverlapText_eq_some _ _ _ h hlt]
      apply termConfined_jsTrim
      intro k hk ht
      rw [List.length_drop] at hk ⊢
      rw [getD_drop_add] at ht
      obtain ⟨hi_lt, hi_term, hi_max⟩ := lastTermIn_some _ i hlt
      have hprelen := List.length_take (c.length - ov + 1) c
      by_cases hin : i + 1 + k < (c.take (c.length - ov + 1)).length
      · have hgetp : (c.take (c.length - ov + 1)).getD (i + 1 + k) ' ' =
            c.getD (i + 1 + k) ' ' := by
          apply getD_take_lt
          omega
        have hfalse := hi_max (i + 1 + k) (by omega) hin
        rw [hgetp, ht] at hfalse
        simp at hfalse
      · rw [hprelen] at hin
        omega

theorem getOverlapText_len_of_confined (c : List Char) (ov : Nat)
    (h : termConfined ov c) : (getOverlapText c ov).length ≤ ov := by
  by_cases hle : c.length ≤ ov
  · unfold getOverlapText
    rw [if_pos hle]
    exact hle
  · cases hlt : lastTermIn (c.take (c.length - ov + 1)) with
    | none =>
      rw [getOverlapText_eq_none _ _ hle hlt]
      have h1 := jsTrim_length_le (c.drop (c.length - ov))
      rw [List.length_drop] at h1
      omega
    | some i =>
      rw [getOverlapText_eq_some _ _ _ hle hlt]
      obtain ⟨hi_lt, hi_term, _⟩ := lastTermIn_some _ i hlt
      have hprelen := List.length_take (c.length - ov + 1) c
      have hgetc : (c.take (c.length - ov + 1)).getD i ' ' = c.getD i ' ' := by
        apply getD_take_lt
        omega
      have hterm : isTermChar (c.getD i ' ') = true := by
        rw [← hgetc]
        exact hi_term
      have hic : i < c.length := by omega
      have hconf := h i hic hterm
      have h1 := jsTrim_length_le (c.drop (i + 1))
      rw [List.length_drop] at h1
      omega

theorem getOverlapText_append_len (seed s : List Char) (ov : Nat)
    (hc : termConfined ov seed) :
    (getOverlapText (seed ++ s) ov).length ≤ ov + s.length := by
  have hlen : (seed ++ s).length = seed.length + s.length := List.length_append _ _
  by_cases hle : (seed ++ s).length ≤ ov
  · unfold getOverlapText
    rw [if_pos hle]
    omega
  · cases hlt : lastTermIn ((seed ++ s).take ((seed ++ s).length - ov + 1)) with
    | none =>
      rw [getOverlapText_eq_none _ _ hle hlt]
      have h1 := jsTrim_length_le ((seed ++ s).drop ((seed ++ s).length - ov))
      rw [List.length_drop] at h1
      omega
    | some i =>
      rw [getOverlapText_eq_some _ _ _ hle hlt]
      obtain ⟨hi_lt, hi_term, _⟩ := lastTermIn_some _ i hlt
      have hprelen := List.length_take ((seed ++ s).length - ov + 1) (seed ++ s)
      have hic : i < (seed ++ s).length := by omega
      have hgetc : ((seed ++ s).take ((seed ++ s).length - ov + 1)).getD i ' ' =
          (seed ++ s).getD i ' ' := by
        apply getD_take_lt
        omega
      have htermc : isTermChar ((seed ++ s).getD i ' ') = true := by
        rw [← hgetc]
        exact hi_term
      have h1 := jsTrim_length_le ((seed ++ s).drop (i + 1))
      rw [List.length_drop] at h1
      by_cases his : i < seed.length
      · have hgs : (seed ++ s).getD i ' ' = seed.getD i ' ' :=
          List.getD_append _ _ _ _ his
        have hconf := hc i his (by rw [← hgs]; exact htermc)
        omega
      · omega

/-! ### Chunk-loop step lemmas -/

theorem chunkStep_chunks_pos (cs ov : Nat) (st : ChunkState) (sentence : List Char)
    (h : (st.current ++ (if st.current.length ≠ 0 then [' '] else []) ++
        sentence).length > cs ∧ st.current.length > 0) :
    (chunkStep cs ov st sentence).chunks =
      st.chunks ++ [⟨jsTrim st.current, st.chunkIndex, st.currentStartChar,
        st.startChar + st.current.length⟩] := by
  unfold chunkStep
  rw [if_pos h]

theorem chunkStep_seeds_pos (cs ov : Nat) (st : ChunkState) (sentence : List Char)
    (h : (st.current ++ (if st.current.length ≠ 0 then [' '] else []) ++
        sentence).length > cs ∧ st.current.length > 0) :
    (chunkStep cs ov st sentence).seeds =
      st.seeds ++ [(st.current, getOverlapText st.current ov)] := by
  unfold chunkStep
  rw [if_pos h]

theorem chunkStep_current_pos (cs ov : Nat) (st : ChunkState) (sentence : List Char)
    (h : (st.current ++ (if st.current.length ≠ 0 then [' '] else []) ++
        sentence).length > cs ∧ st.current.length > 0) :
    (chunkStep cs ov st sentence).current =
      getOverlapText st.current ov ++ sentence := by
  unfold chunkStep
  rw [if_pos h]

theorem chunkStep_chunks_neg (cs ov : Nat) (st : ChunkState) (sentence : List Char)
    (h : ¬ ((st.current ++ (if st.current.length ≠ 0 then [' '] else []) ++
        sentence).length > cs ∧ st.current.length > 0)) :
    (chunkStep cs ov st sentence).chunks = st.chunks := by
  unfold chunkStep
  rw [if_neg h]

theorem chunkStep_seeds_neg (cs ov : Nat) (st : ChunkState) (sentence : List Char)
    (h : ¬ ((st.current ++ (if st.current.length ≠ 0 then [' '] else []) ++
        sentence).length > cs ∧ st.current.length > 0)) :
    (chunkStep cs ov st sentence).seeds = st.seeds := by
  unfold chunkStep
  rw [if_neg h]

theorem chunkStep_current_neg (cs ov : Nat) (st : ChunkState) (sentence : List Char)
    (h : ¬ ((st.current ++ (if st.current.length ≠ 0 then [' '] else []) ++
        sentence).length > cs ∧ st.current.length > 0)) :
    (chunkStep cs ov st sentence).current =
      st.current ++ (if st.current.length ≠ 0 then [' '] else []) ++ sentence := by
  unfold chunkStep
  rw [if_neg h]

/-! ### Chunk-length invariant (claim C6) -/

theorem maxSentLen_spec (text : List Char) :
    ∀ s ∈ splitIntoSentences text, s.length ≤ maxSentLen text := by
  unfold maxSentLen
  generalize splitIntoSentences text = L
  induction L with
  | nil => simp
  | cons a t ih =>
    intro s hs
    simp only [List.map_cons, List.foldr_cons]
    rcases List.mem_cons.mp hs with rfl | hs2
    · exact le_max_left _ _
    · exact le_trans (ih s hs2) (le_max_right _ _)

theorem chunkStep_len_inv (cs ov M : Nat) (st : ChunkState) (sentence : List Char)
    (hs : sentence.length ≤ M)
    (h1 : ∀ c ∈ st.chunks, c.content.length ≤ max cs (ov + M) + M)
    (h2 : LenBufInv cs ov M st.current) :
    (∀ c ∈ (chunkStep cs ov st sentence).chunks,
        c.content.length ≤ max cs (ov + M) + M) ∧
    LenBufInv cs ov M (chunkStep cs ov st sentence).current := by
  by_cases hcond : (st.current ++ (if st.current.length ≠ 0 then [' '] else []) ++
      sentence).length > cs ∧ st.current.length > 0
  · constructor
    · intro c hc
      rw [chunkStep_chunks_pos cs ov st sentence hcond] at hc
      rcases List.mem_append.mp hc with h | h
      · exact h1 c h
      · have hcur : st.current.length ≤ max cs (ov + M) + M := by
          rcases h2 with hnil | hle | ⟨seed, s, heq, _, hsl, hsl2⟩
          · rw [hnil]
            simp
          · omega
          · rw [heq, List.length_append]
            omega
        have hjt := jsTrim_length_le st.current
        rcases List.mem_singleton.mp h with rfl
        show (jsTrim st.current).length ≤ max cs (ov + M) + M
        omega
    · rw [chunkStep_current_pos cs ov st sentence hcond]
      right
      right
      refine ⟨getOverlapText st.current ov, sentence, rfl,
        getOverlapText_termConfined _ _, ?_, hs⟩
      rcases h2 with hnil | hle | ⟨seed, s, heq, htc, hsl, hsl2⟩
      · exfalso
        rw [hnil] at hcond
        simp at hcond
      · have := getOverlapText_length_le st.current ov
        omega
      · rw [heq]
        have := getOverlapText_append_len seed s ov htc
        omega
  · constructor
    · intro c hc
      rw [chunkStep_chunks_neg cs ov st sentence hcond] at hc
      exact h1 c hc
    · rw [chunkStep_current_neg cs ov st sentence hcond]
      by_cases hemp : st.current.length = 0
      · right
        right
        have hcur : st.current = [] := List.eq_nil_of_length_eq_zero hemp
        refine ⟨[], sentence, ?_, termConfined_of_le ov [] (by simp), by simp, hs⟩
        rw [hcur]
        simp
      · right
        left
        have hsz : ¬ ((st.current ++ (if st.current.length ≠ 0 then [' '] else []) ++
            sentence).length > cs) := by
          intro hA
          exact hcond ⟨hA, by omega⟩
        omega

theorem chunkRun_len_inv (cs ov M : Nat) (sents : List (List Char)) :
    (∀ s ∈ sents, s.length ≤ M) →
    ∀ st : ChunkState,
      (∀ c ∈ st.chunks, c.content.length ≤ max cs (ov + M) + M) →
      LenBufInv cs ov M st.current →
      (∀ c ∈ (sents.foldl (chunkStep cs ov) st).chunks,
          c.content.length ≤ max cs (ov + M) + M) ∧
      LenBufInv cs ov M (sents.foldl (chunkStep cs ov) st).current := by
  induction sents with
  | nil =>
    intro _ st h1 h2
    exact ⟨h1, h2⟩
  | cons sent rest ih =>
    intro hM st h1 h2
    simp only [List.foldl_cons]
    have hstep := chunkStep_len_inv cs ov M st sent
      (hM sent (List.mem_cons_self _ _)) h1 h2
    exact ih (fun s hs => hM s (List.mem_cons_of_mem _ hs)) _ hstep.1 hstep.2

/-- C6 counterexample: with chunk size 10 and overlap 3 (overlap ≤
chunk size), the text `X. BBBBBBBBBBBBB CCCCC` produces a final chunk
of 38 characters, exceeding chunkSize + longest sentence = 31, and that
chunk is not a single (whole) sentence: the overlap seed, trimmed
backward to the sentence boundary after `X.`, re-imports almost the
whole previous chunk. -/
theorem length_claim_cex : ¬ lengthClaimAt 10 3 cexText := by decide

/-- C6 amended: with the configured overlap at most the chunk size,
every chunk produced by `chunkText` has content length at most
chunkSize plus TWO longest-sentence lengths (the overlap seed is
trimmed backward to a sentence boundary and may itself carry up to one
extra sentence beyond the configured overlap, which is what the
counterexample exploits); the original chunkSize-plus-one-sentence
bound holds whenever the seeds stay within the overlap. -/
theorem chunk_length_amended (cs ov : Nat) (text : List Char) (hov : ov ≤ cs) :
    ∀ c ∈ chunkText cs ov text,
      c.content.length ≤ cs + 2 * maxSentLen text := by
  intro c hc
  unfold chunkText at hc
  by_cases hemp : (jsTrim text).length = 0
  · rw [if_pos hemp] at hc
    simp at hc
  · rw [if_neg hemp] at hc
    have hbound := chunkRun_len_inv cs ov (maxSentLen text) (splitIntoSentences text)
      (maxSentLen_spec text) ⟨[], [], [], 0, 0, 0⟩
      (by intro c2 hc2; simp at hc2) (Or.inl rfl)
    have hB : max cs (ov + maxSentLen text) + maxSentLen text ≤
        cs + 2 * maxSentLen text := by omega
    unfold chunkFinal at hc
    have hrun : chunkRun cs ov text =
        (splitIntoSentences text).foldl (chunkStep cs ov) ⟨[], [], [], 0, 0, 0⟩ := rfl
    rw [hrun] at hc
    split at hc
    · rcases List.mem_append.mp hc with h | h
      · exact le_trans (hbound.1 c h) hB
      · rcases List.mem_singleton.mp h with rfl
        set x := ((splitIntoSentences text).foldl (chunkStep cs ov)
          ⟨[], [], [], 0, 0, 0⟩).current with hx
        have hjt := jsTrim_length_le x
        show (jsTrim x).length ≤ cs + 2 * maxSentLen text
        rcases hbound.2 with hnil | hle | ⟨seed, s, heq, _, hsl, hsl2⟩
        · rw [hnil, show jsTrim ([] : List Char) = [] from rfl]
          simp
        · omega
        · rw [heq]
          have hjt2 := jsTrim_length_le (seed ++ s)
          rw [List.length_append] at hjt2
          omega
    · exact le_trans (hbound.1 c hc) hB

theorem chunk_length_amended_witness :
    ((chunkText 10 3 cexText).getD 0 defaultChunk).content.length ≤
      10 + 2 * maxSentLen cexText :=
  chunk_length_amended 10 3 cexText (by decide)
    ((chunkText 10 3 cexText).getD 0 defaultChunk) (by decide)

/-! ### Seed invariant (claim C5) -/

theorem startsWithL_of_append (p t l : List Char) (h : l = p ++ t) :
    startsWithL p l := by
  subst h
  unfold startsWithL
  exact List.take_left p t

theorem endsWithL_of_append (p u l : List Char) (h : l = u ++ p) :
    endsWithL p l := by
  subst h
  unfold endsWithL
  rw [List.length_append]
  have hi : u.length + p.length - p.length = u.length := by omega
  rw [hi]
  exact List.drop_left u p

theorem chunkStep_seeds_inv (cs ov : Nat) (st : ChunkState) (sentence : List Char)
    (h : SeedsInv ov st) : SeedsInv ov (chunkStep cs ov st sentence) := by
  obtain ⟨hlen, hpair, hnext, hcur⟩ := h
  by_cases hcond : (st.current ++ (if st.current.length ≠ 0 then [' '] else []) ++
      sentence).length > cs ∧ st.current.length > 0
  · refine ⟨?_, ?_, ?_, ?_⟩
    · rw [chunkStep_seeds_pos cs ov st sentence hcond,
        chunkStep_chunks_pos cs ov st sentence hcond,
        List.length_append, List.length_append, hlen]
      rfl
    · intro j hj
      rw [chunkStep_seeds_pos cs ov st sentence hcond] at hj
      rw [List.length_append, List.length_cons, List.length_nil] at hj
      rw [chunkStep_seeds_pos cs ov st sentence hcond,
        chunkStep_chunks_pos cs ov st sentence hcond]
      by_cases hjo : j < st.seeds.length
      · rw [List.getD_append _ _ _ _ hjo, List.getD_append _ _ _ _ (by omega)]
        exact hpair j hjo
      · have hje : j = st.seeds.length := by omega
        subst hje
        rw [List.getD_append_right _ _ _ _ (le_refl _),
          List.getD_append_right _ _ _ _ (by omega), Nat.sub_self]
        have hze : st.seeds.length - st.chunks.length = 0 := by omega
        rw [hze]
        exact ⟨rfl, rfl⟩
    · intro j hj
      rw [chunkStep_chunks_pos cs ov st sentence hcond] at hj
      rw [List.length_append, List.length_cons, List.length_nil] at hj
      rw [chunkStep_chunks_pos cs ov st sentence hcond,
        chunkStep_seeds_pos cs ov st sentence hcond]
      by_cases hj2 : j + 1 < st.chunks.length
      · obtain ⟨u, hu⟩ := hnext j hj2
        refine ⟨u, ?_⟩
        rw [List.getD_append _ _ _ _ (by omega), List.getD_append _ _ _ _ (by omega)]
        exact hu
      · have hje : j + 1 = st.chunks.length := by omega
        have hnz : st.chunks.length ≠ 0 := by omega
        obtain ⟨t, hctu⟩ := hcur hnz
        obtain ⟨u, hu⟩ :=
          jsTrim_append_pre ((st.seeds.getD (st.seeds.length - 1) ([], [])).2) t
        refine ⟨u, ?_⟩
        rw [List.getD_append_right _ _ _ _ (by omega),
          List.getD_append _ _ _ _ (by omega)]
        have hidx : j + 1 - st.chunks.length = 0 := by omega
        rw [hidx]
        show jsTrim st.current = jsTrim ((st.seeds.getD j ([], [])).2) ++ u
        rw [hctu]
        have hj3 : j = st.seeds.length - 1 := by omega
        rw [hj3]
        exact hu
    · intro _
      rw [chunkStep_seeds_pos cs ov st sentence hcond,
        chunkStep_current_pos cs ov st sentence hcond]
      refine ⟨sentence, ?_⟩
      rw [List.length_append, List.length_cons, List.length_nil,
        List.getD_append_right _ _ _ _ (by omega)]
      have hidx : st.seeds.length + 1 - 1 - st.seeds.length = 0 := by omega
      rw [hidx]
      rfl
  · refine ⟨?_, ?_, ?_, ?_⟩
    · rw [chunkStep_seeds_neg cs ov st sentence hcond,
        chunkStep_chunks_neg cs ov st sentence hcond]
      exact hlen
    · intro j hj
      rw [chunkStep_seeds_neg cs ov st sentence hcond] at hj
      rw [chunkStep_seeds_neg cs ov st sentence hcond,
        chunkStep_chunks_neg cs ov st sentence hcond]
      exact hpair j hj
    · intro j hj
      rw [chunkStep_chunks_neg cs ov st sentence hcond] at hj
      rw [chunkStep_chunks_neg cs ov st sentence hcond,
        chunkStep_seeds_neg cs ov st sentence hcond]
      exact hnext j hj
    · intro h0
      rw [chunkStep_chunks_neg cs ov st sentence hcond] at h0
      rw [chunkStep_seeds_neg cs ov st sentence hcond,
        chunkStep_current_neg cs ov st sentence hcond]
      obtain ⟨u, hu⟩ := hcur h0
      refine ⟨u ++ (if st.current.length ≠ 0 then [' '] else []) ++ sentence, ?_⟩
      rw [hu]
      simp [List.append_assoc]

theorem chunkRun_seeds_inv (cs ov : Nat) (sents : List (List Char)) :
    ∀ st : ChunkState, SeedsInv ov st →
      SeedsInv ov (sents.foldl (chunkStep cs ov) st) := by
  induction sents with
  | nil => intro st h; exact h
  | cons sent rest ih =>
    intro st h
    simp only [List.foldl_cons]
    exact ih _ (chunkStep_seeds_inv cs ov st sent h)

theorem seedsInv_init (ov : Nat) : SeedsInv ov ⟨[], [], [], 0, 0, 0⟩ := by
  refine ⟨rfl, ?_, ?_, ?_⟩
  · intro j hj
    simp at hj
  · intro j hj
    simp at hj
  · intro h0
    simp at h0

theorem chunkText_pairs (cs ov : Nat) (text : List Char) (j : Nat)
    (hj : j + 1 < (chunkText cs ov text).length) :
    j < (chunkSeeds cs ov text).length ∧
    ((chunkSeeds cs ov text).getD j ([], [])).2 =
      getOverlapText ((chunkSeeds cs ov text).getD j ([], [])).1 ov ∧
    ((chunkText cs ov text).getD j defaultChunk).content =
      jsTrim ((chunkSeeds cs ov text).getD j ([], [])).1 ∧
    ∃ u, ((chunkText cs ov text).getD (j + 1) defaultChunk).content =
      jsTrim ((chunkSeeds cs ov text).getD j ([], [])).2 ++ u := by
  by_cases hemp : (jsTrim text).length = 0
  · exfalso
    unfold chunkText at hj
    rw [if_pos hemp] at hj
    simp at hj
  · have hct : chunkText cs ov text = chunkFinal (chunkRun cs ov text) := by
      unfold chunkText
      rw [if_neg hemp]
    have hcs : chunkSeeds cs ov text = (chunkRun cs ov text).seeds := rfl
    rw [hct] at hj ⊢
    rw [hcs]
    have hinv : SeedsInv ov (chunkRun cs ov text) :=
      chunkRun_seeds_inv cs ov (splitIntoSentences text) _ (seedsInv_init ov)
    set st := chunkRun cs ov text with hst
    obtain ⟨hlen, hpair, hnext, hcur⟩ := hinv
    by_cases hfin : (jsTrim st.current).length > 0
    · have hcf : chunkFinal st = st.chunks ++
          [⟨jsTrim st.current, st.chunkIndex, st.currentStartChar, st.startChar⟩] := by
        unfold chunkFinal
        rw [if_pos hfin]
      rw [hcf] at hj ⊢
      rw [List.length_append, List.length_cons, List.length_nil] at hj
      by_cases hj2 : j + 1 < st.chunks.length
      · have hjs : j < st.seeds.length := by omega
        refine ⟨hjs, (hpair j hjs).1, ?_, ?_⟩
        · rw [List.getD_append _ _ _ _ (by omega)]
          exact (hpair j hjs).2
        · obtain ⟨u, hu⟩ := hnext j hj2
          refine ⟨u, ?_⟩
          rw [List.getD_append _ _ _ _ (by omega)]
          exact hu
      · have hje : j + 1 = st.chunks.length := by omega
        have hnz : st.chunks.length ≠ 0 := by omega
        have hjs : j < st.seeds.length := by omega
        obtain ⟨t, hctu⟩ := hcur hnz
        refine ⟨hjs, (hpair j hjs).1, ?_, ?_⟩
        · rw [List.getD_append _ _ _ _ (by omega)]
          exact (hpair j hjs).2
        · obtain ⟨u, hu⟩ :=
            jsTrim_append_pre ((st.seeds.getD (st.seeds.length - 1) ([], [])).2) t
          refine ⟨u, ?_⟩
          rw [List.getD_append_right _ _ _ _ (by omega)]
          have hidx : j + 1 - st.chunks.length = 0 := by omega
          rw [hidx]
          show jsTrim st.current = jsTrim ((st.seeds.getD j ([], [])).2) ++ u
          rw [hctu]
          have hj3 : j = st.seeds.length - 1 := by omega
          rw [hj3]
          exact hu
    · have hcf : chunkFinal st = st.chunks := by
        unfold chunkFinal
        rw [if_neg hfin]
      rw [hcf] at hj ⊢
      have hjs : j < st.seeds.length := by omega
      exact ⟨hjs, (hpair j hjs).1, (hpair j hjs).2, hnext j hj⟩

/-- C5 counterexample: with chunk size 10 and overlap 3 on the text
`X. BBBBBBBBBBBBB CCCCC`, the overlap string seeded between the second
and third chunks is `BBBBBBBBBBBBB CCCCC` (19 characters), far longer
than the configured overlap of 3: the backward trim to the sentence
boundary after `X.` makes the seed longer, not shorter.  The claim's
length bound fails as stated. -/
theorem overlap_claim_cex : ¬ overlapClaimAt 10 3 cexText := by decide

/-- C5 amended: for every adjacent chunk pair, the recorded overlap
seed is `getOverlapText` of the sealed raw buffer, the earlier chunk is
that buffer trimmed, the trimmed seed is a suffix of the earlier chunk,
and the later chunk begins with it; the seed's length is bounded by the
configured overlap only when the sealed buffer has no sentence
terminator before its final `overlap` characters — in general the
backward sentence-boundary search can make it longer than the
configured overlap. -/
theorem chunk_overlap_amended (cs ov : Nat) (text : List Char) (j : Nat)
    (hj : j + 1 < (chunkText cs ov text).length) :
    ((chunkSeeds cs ov text).getD j ([], [])).2 =
      getOverlapText ((chunkSeeds cs ov text).getD j ([], [])).1 ov ∧
    ((chunkText cs ov text).getD j defaultChunk).content =
      jsTrim ((chunkSeeds cs ov text).getD j ([], [])).1 ∧
    endsWithL (jsTrim ((chunkSeeds cs ov text).getD j ([], [])).2)
      ((chunkText cs ov text).getD j defaultChunk).content ∧
    startsWithL (jsTrim ((chunkSeeds cs ov text).getD j ([], [])).2)
      ((chunkText cs ov text).getD (j + 1) defaultChunk).content ∧
    (termConfined ov ((chunkSeeds cs ov text).getD j ([], [])).1 →
      (jsTrim ((chunkSeeds cs ov text).getD j ([], [])).2).length ≤ ov) := by
  obtain ⟨hjs, hseed, hcontent, u, hu⟩ := chunkText_pairs cs ov text j hj
  refine ⟨hseed, hcontent, ?_, ?_, ?_⟩
  · obtain ⟨w, hw⟩ :=
      getOverlapText_suffix ((chunkSeeds cs ov text).getD j ([], [])).1 ov
    apply endsWithL_of_append _ w
    rw [hcontent, hseed]
    exact hw
  · exact startsWithL_of_append _ u _ hu
  · intro htc
    rw [hseed]
    have h1 := getOverlapText_len_of_confined _ ov htc
    have h2 := jsTrim_length_le
      (getOverlapText ((chunkSeeds cs ov text).getD j ([], [])).1 ov)
    omega

theorem chunk_overlap_amended_witness :
    (jsTrim ((chunkSeeds 10 3 cexText).getD 0 ([], [])).2).length ≤ 3 :=
  (chunk_overlap_amended 10 3 cexText 0 (by decide)).2.2.2.2 (by decide)
